import Mathlib

/-!
Verification development for the dependency-service repository.

The service maintains a per-tenant directed graph of work-item dependency
edges, guards edge creation with a bounded reachability probe
(`wouldCreateCycle`), computes a Critical Path Method (CPM) schedule
(`calculateCriticalPath`), and exposes the operations over HTTP with a
pattern-matching error classifier (`handleError`).

This file shallowly embeds those operations and proves (or refutes)
the specification's claims about them.  Node and edge identifiers are
modelled as `Nat`, day counts as `Int`, JavaScript `NaN` / `-Infinity`
results of degenerate float operations as `none : Option _`.
-/

namespace DepService

/-! ## Directed walks over an edge list

`isWalkR E a l b` holds when `l` is the list of vertices visited after `a`
on a walk from `a` to `b` along edges of `E` (so `l = []` means the empty
walk and forces `a = b`; a walk with `n` edges has `l.length = n` and the
last entry of a non-empty `l` is `b`). -/

def isWalkR (E : List (Nat × Nat)) : Nat → List Nat → Nat → Bool
  | a, [], b => a == b
  | a, x :: xs, b => E.contains (a, x) && isWalkR E x xs b

theorem isWalkR_nil {E : List (Nat × Nat)} {a b : Nat} :
    isWalkR E a [] b = true ↔ a = b := by
  simp [isWalkR]

theorem isWalkR_cons {E : List (Nat × Nat)} {a x b : Nat} {xs : List Nat} :
    isWalkR E a (x :: xs) b = true ↔ (a, x) ∈ E ∧ isWalkR E x xs b = true := by
  simp [isWalkR, List.elem_iff]

/-- Splitting and joining walks at an intermediate vertex. -/
theorem isWalkR_append {E : List (Nat × Nat)} (p : List Nat) {q : List Nat} {a c : Nat} :
    isWalkR E a (p ++ q) c = true ↔
      ∃ m, isWalkR E a p m = true ∧ isWalkR E m q c = true := by
  induction p generalizing a with
  | nil =>
    constructor
    · intro h; exact ⟨a, by simp [isWalkR], h⟩
    · rintro ⟨m, hm, hq⟩
      rw [isWalkR_nil] at hm; subst hm; exact hq
  | cons x xs ih =>
    simp only [List.cons_append, isWalkR_cons, ih]
    constructor
    · rintro ⟨he, m, h1, h2⟩; exact ⟨m, ⟨he, h1⟩, h2⟩
    · rintro ⟨m, ⟨he, h1⟩, h2⟩; exact ⟨he, m, h1, h2⟩

/-- A walk whose vertex list ends in `v` ends at `v`. -/
theorem isWalkR_last {E : List (Nat × Nat)} {a v m : Nat} {xs : List Nat}
    (h : isWalkR E a (xs ++ [v]) m = true) : m = v := by
  rcases (isWalkR_append xs).1 h with ⟨w, _, hlast⟩
  rcases (isWalkR_cons).1 hlast with ⟨_, htail⟩
  exact (isWalkR_nil.1 htail).symm

/-- Every vertex of a walk except the final one is the source of an edge. -/
theorem isWalkR_sources {E : List (Nat × Nat)} :
    ∀ (l : List Nat) (a b : Nat), isWalkR E a l b = true → l ≠ [] →
      ∀ v ∈ a :: l.dropLast, v ∈ E.map Prod.fst := by
  intro l
  induction l with
  | nil => intro a b _ hne; exact absurd rfl hne
  | cons x xs ih =>
    intro a b h _
    rcases isWalkR_cons.1 h with ⟨hmem, htail⟩
    intro v hv
    cases xs with
    | nil =>
      simp only [List.dropLast_single, List.mem_singleton] at hv
      subst hv
      exact List.mem_map.2 ⟨(v, x), hmem, rfl⟩
    | cons y ys =>
      rw [List.dropLast_cons₂, List.mem_cons] at hv
      rcases hv with rfl | hv
      · exact List.mem_map.2 ⟨(v, x), hmem, rfl⟩
      · exact ih x b htail (by simp) v hv

/-- A list that is not `Nodup` contains some element twice, with an
explicit decomposition around the two occurrences. -/
theorem exists_two_split {l : List Nat} (h : ¬ l.Nodup) :
    ∃ p v q r, l = p ++ (v :: (q ++ (v :: r))) := by
  induction l with
  | nil => exact absurd List.nodup_nil h
  | cons x xs ih =>
    rw [List.nodup_cons] at h
    push_neg at h
    by_cases hx : x ∈ xs
    · rcases List.append_of_mem hx with ⟨q, r, rfl⟩
      exact ⟨[], x, q, r, rfl⟩
    · rcases ih (h hx) with ⟨p, v, q, r, rfl⟩
      exact ⟨x :: p, v, q, r, rfl⟩

/-- `Acyclic E`: the edge list admits no closed walk of positive length. -/
def Acyclic (E : List (Nat × Nat)) : Prop :=
  ∀ (v : Nat) (l : List Nat), l ≠ [] → isWalkR E v l v = false

/-- From a walk whose vertex list repeats a vertex, extract a closed walk
no longer than the original. -/
theorem closed_of_dup {E : List (Nat × Nat)} {a b : Nat} {l : List Nat}
    (hw : isWalkR E a l b = true) (hdup : ¬ (a :: l).Nodup) :
    ∃ v q, isWalkR E v (q ++ [v]) v = true ∧ (q ++ [v]).length ≤ l.length := by
  rcases exists_two_split hdup with ⟨p, v, q, r, hsplit⟩
  cases p with
  | nil =>
    -- here a = v and l = q ++ v :: r
    simp only [List.nil_append, List.cons.injEq] at hsplit
    obtain ⟨ha, rfl⟩ := hsplit
    subst ha
    have hw2 : isWalkR E a ((q ++ [a]) ++ r) b = true := by
      have e : (q ++ [a]) ++ r = q ++ (a :: r) := by simp
      rw [e]; exact hw
    rcases (isWalkR_append (q ++ [a])).1 hw2 with ⟨m, hm, _⟩
    have hmv := isWalkR_last hm
    rw [hmv] at hm
    exact ⟨a, q, hm, by simp⟩
  | cons x p' =>
    simp only [List.cons_append, List.cons.injEq] at hsplit
    obtain ⟨ha, rfl⟩ := hsplit
    have hw2 : isWalkR E a ((p' ++ [v]) ++ ((q ++ [v]) ++ r)) b = true := by
      have e : (p' ++ [v]) ++ ((q ++ [v]) ++ r) = p' ++ (v :: (q ++ (v :: r))) := by simp
      rw [e]; exact hw
    rcases (isWalkR_append (p' ++ [v])).1 hw2 with ⟨m1, hm1, hrest⟩
    have hm1v := isWalkR_last hm1
    rw [hm1v] at hrest
    rcases (isWalkR_append (q ++ [v])).1 hrest with ⟨m2, hm2, _⟩
    have hm2v := isWalkR_last hm2
    rw [hm2v] at hm2
    refine ⟨v, q, hm2, ?_⟩
    simp [List.length_append]
    omega

/-- A `Nodup` list contained in another list is no longer than it. -/
theorem nodup_subset_length {l l' : List Nat} (hnd : l.Nodup)
    (hsub : ∀ x ∈ l, x ∈ l') : l.length ≤ l'.length := by
  calc l.length = l.toFinset.card := (List.toFinset_card_of_nodup hnd).symm
    _ ≤ l'.toFinset.card := by
        apply Finset.card_le_card
        intro x hx
        rw [List.mem_toFinset] at hx ⊢
        exact hsub x hx
    _ ≤ l'.length := l'.toFinset_card_le

/-- In an acyclic edge list, every walk has at most `E.length` edges. -/
theorem walk_length_le {E : List (Nat × Nat)} (hacy : Acyclic E)
    {a b : Nat} {l : List Nat} (hw : isWalkR E a l b = true) :
    l.length ≤ E.length := by
  cases hl : l with
  | nil => simp
  | cons x xs =>
    subst hl
    have hnd : (a :: x :: xs).Nodup := by
      by_contra hdup
      rcases closed_of_dup hw hdup with ⟨v, q, hclosed, _⟩
      have := hacy v (q ++ [v]) (by simp)
      rw [this] at hclosed
      exact Bool.false_ne_true hclosed
    have hnd' : (a :: (x :: xs).dropLast).Nodup := by
      refine List.Nodup.sublist ?_ hnd
      exact List.Sublist.cons₂ a (List.dropLast_sublist _)
    have hsrc := isWalkR_sources (E := E) (x :: xs) a b hw (by simp)
    have hlen := nodup_subset_length hnd' hsrc
    have : (a :: (x :: xs).dropLast).length = (x :: xs).length := by
      simp [List.length_dropLast]
    rw [this] at hlen
    simpa using hlen

/-- Walks are preserved by enlarging the edge list. -/
theorem isWalkR_mono {E E' : List (Nat × Nat)} (hsub : ∀ e ∈ E, e ∈ E') :
    ∀ (l : List Nat) (a b : Nat), isWalkR E a l b = true → isWalkR E' a l b = true := by
  intro l
  induction l with
  | nil => intro a b h; rwa [isWalkR_nil] at h ⊢
  | cons x xs ih =>
    intro a b h
    rcases isWalkR_cons.1 h with ⟨hmem, htail⟩
    exact isWalkR_cons.2 ⟨hsub _ hmem, ih x b htail⟩

/-- Subsets of acyclic edge lists are acyclic. -/
theorem Acyclic.of_subset {E E' : List (Nat × Nat)} (hsub : ∀ e ∈ E, e ∈ E')
    (hacy : Acyclic E') : Acyclic E := by
  intro v l hl
  by_contra h
  rw [Bool.not_eq_false] at h
  have := isWalkR_mono hsub l v v h
  rw [hacy v l hl] at this
  exact Bool.false_ne_true this

/-! ## Bounded reachability (the recursive-CTE probe)

`hasPathB E fuel a b` holds iff there is a walk from `a` to `b` of between
`1` and `fuel` edges, matching the recursive SQL query of
`wouldCreateCycle` whose `depth` column is capped (`dp.depth < 20`). -/

def hasPathB (E : List (Nat × Nat)) : Nat → Nat → Nat → Bool
  | 0, _, _ => false
  | fuel + 1, a, b => E.any (fun e => e.1 == a && (e.2 == b || hasPathB E fuel e.2 b))

theorem hasPathB_sound {E : List (Nat × Nat)} :
    ∀ {fuel a b : Nat}, hasPathB E fuel a b = true →
      ∃ l : List Nat, l ≠ [] ∧ l.length ≤ fuel ∧ isWalkR E a l b = true := by
  intro fuel
  induction fuel with
  | zero => intro a b h; simp [hasPathB] at h
  | succ n ih =>
    intro a b h
    simp only [hasPathB, List.any_eq_true, Bool.and_eq_true, Bool.or_eq_true, beq_iff_eq] at h
    rcases h with ⟨⟨x, y⟩, hmem, hxa, hrest⟩
    dsimp only at hxa hrest
    subst hxa
    rcases hrest with hyb | hpath
    · rw [hyb] at hmem
      refine ⟨[b], by simp, by simp, ?_⟩
      exact isWalkR_cons.2 ⟨hmem, isWalkR_nil.2 rfl⟩
    · rcases ih hpath with ⟨l, hl, hlen, hwalk⟩
      exact ⟨y :: l, by simp, by simpa using Nat.succ_le_succ hlen,
        isWalkR_cons.2 ⟨hmem, hwalk⟩⟩

theorem hasPathB_complete {E : List (Nat × Nat)} :
    ∀ (l : List Nat) (a b : Nat), isWalkR E a l b = true → l ≠ [] →
      ∀ fuel, l.length ≤ fuel → hasPathB E fuel a b = true := by
  intro l
  induction l with
  | nil => intro a b _ hne; exact absurd rfl hne
  | cons x xs ih =>
    intro a b hw _ fuel hfuel
    rcases isWalkR_cons.1 hw with ⟨hmem, htail⟩
    cases fuel with
    | zero => simp at hfuel
    | succ n =>
      simp only [hasPathB, List.any_eq_true, Bool.and_eq_true, Bool.or_eq_true, beq_iff_eq]
      refine ⟨(a, x), hmem, rfl, ?_⟩
      cases xs with
      | nil => exact Or.inl (isWalkR_nil.1 htail)
      | cons y ys =>
        refine Or.inr (ih x b htail (by simp) n ?_)
        simpa using Nat.succ_le_succ_iff.1 hfuel

/-- Decidable acyclicity check: no edge source reaches itself within
`E.length` steps.  (Any closed walk can be shortened below that bound.) -/
def acyclicB (E : List (Nat × Nat)) : Bool :=
  !((E.map Prod.fst).any (fun v => hasPathB E E.length v v))

theorem acyclicB_iff {E : List (Nat × Nat)} : acyclicB E = true ↔ Acyclic E := by
  constructor
  · intro h
    simp only [acyclicB, Bool.not_eq_true', List.any_eq_false] at h
    intro v l hl
    by_contra hcl
    rw [Bool.not_eq_false] at hcl
    -- shorten the closed walk until it fits under the fuel bound
    have main : ∀ n (w : Nat) (m : List Nat), m.length ≤ n → m ≠ [] →
        isWalkR E w m w = true → False := by
      intro n
      induction n with
      | zero =>
        intro w m hle hne _
        cases m with
        | nil => exact hne rfl
        | cons c cs => simp at hle
      | succ k ihn =>
        intro w m hle hne hwalk
        by_cases hnd : (w :: m.dropLast).Nodup
        · -- a closed walk with no repeated interior vertex is bounded by
          -- the edge count, hence found by the bounded search
          have hsrc := isWalkR_sources (E := E) m w w hwalk hne
          have hlen := nodup_subset_length hnd hsrc
          have hlen2 : m.length ≤ E.length := by
            have hm : (w :: m.dropLast).length = m.length := by
              cases m with
              | nil => exact absurd rfl hne
              | cons c cs => simp [List.length_dropLast]
            rw [hm] at hlen
            simpa using hlen
          have hv : w ∈ E.map Prod.fst := hsrc w (List.mem_cons_self w _)
          have hfound := hasPathB_complete m w w hwalk hne E.length hlen2
          exact h w hv hfound
        · -- a repeated interior vertex yields a strictly shorter closed walk
          have hm : m.dropLast ++ [m.getLast hne] = m := List.dropLast_append_getLast hne
          have hwalk2 : isWalkR E w (m.dropLast ++ [m.getLast hne]) w = true := by
            rw [hm]; exact hwalk
          have hlast : w = m.getLast hne := isWalkR_last hwalk2
          rcases (isWalkR_append m.dropLast).1 hwalk2 with ⟨mid, hmid, _⟩
          rcases closed_of_dup hmid hnd with ⟨u, q, hcl2, hqlen⟩
          have hshort : (q ++ [u]).length ≤ k := by
            have h1 : m.dropLast.length < m.length := by
              cases m with
              | nil => exact absurd rfl hne
              | cons c cs => simp [List.length_dropLast]
            omega
          exact ihn u (q ++ [u]) hshort (by simp) hcl2
    exact main l.length v l le_rfl hl hcl
  · intro hacy
    simp only [acyclicB, Bool.not_eq_true', List.any_eq_false]
    intro v _ hp
    rcases hasPathB_sound hp with ⟨l, hne, _, hwalk⟩
    rw [hacy v l hne] at hwalk
    exact Bool.false_ne_true hwalk

/-! ## Inserting one edge into an acyclic edge list -/

/-- A walk over `E ++ [(f, t)]` either stays inside `E` or passes through
the new edge, in which case it decomposes at a traversal of `(f, t)`. -/
theorem walk_insert_cases {E : List (Nat × Nat)} {f t : Nat} :
    ∀ (l : List Nat) (a c : Nat), isWalkR (E ++ [(f, t)]) a l c = true →
      isWalkR E a l c = true ∨
      ∃ p q, l = p ++ (t :: q) ∧ isWalkR (E ++ [(f, t)]) a p f = true ∧
        isWalkR (E ++ [(f, t)]) t q c = true := by
  intro l
  induction l with
  | nil => intro a c h; exact Or.inl h
  | cons x xs ih =>
    intro a c h
    rcases isWalkR_cons.1 h with ⟨hmem, htail⟩
    rw [List.mem_append, List.mem_singleton] at hmem
    rcases hmem with hmemE | hnew
    · rcases ih x c htail with hE | ⟨p, q, hsplit, hp, hq⟩
      · exact Or.inl (isWalkR_cons.2 ⟨hmemE, hE⟩)
      · refine Or.inr ⟨x :: p, q, by rw [hsplit]; rfl, ?_, hq⟩
        refine isWalkR_cons.2 ⟨?_, hp⟩
        rw [List.mem_append]
        exact Or.inl hmemE
    · rcases Prod.mk.injEq .. ▸ hnew with ⟨ha, hx⟩
      refine Or.inr ⟨[], xs, by simp [hx], ?_, hx ▸ htail⟩
      exact isWalkR_nil.2 ha

/-- If `t` cannot reach `f`, the new edge `(f, t)` creates no walk from
`t` to `f` either. -/
theorem no_walk_to_f {E : List (Nat × Nat)} {f t : Nat}
    (hnoE : ∀ l, isWalkR E t l f = false) (hft : f ≠ t) :
    ∀ (n : Nat) (l : List Nat), l.length ≤ n →
      isWalkR (E ++ [(f, t)]) t l f = false := by
  intro n
  induction n with
  | zero =>
    intro l hle
    cases l with
    | nil => simpa [isWalkR] using fun h => hft h.symm
    | cons x xs => simp at hle
  | succ k ihn =>
    intro l hle
    by_contra hcl
    rw [Bool.not_eq_false] at hcl
    rcases walk_insert_cases l t f hcl with hE | ⟨p, q, hsplit, _, hq⟩
    · rw [hnoE l] at hE
      exact Bool.false_ne_true hE
    · have hqlen : q.length ≤ k := by
        have : l.length = p.length + q.length + 1 := by
          rw [hsplit]; simp [List.length_append]; omega
        omega
      have := ihn q hqlen
      rw [this] at hq
      exact Bool.false_ne_true hq

/-- Inserting `(f, t)` into an acyclic edge list keeps it acyclic,
provided `f ≠ t` and `t` cannot already reach `f`. -/
theorem acyclic_insert {E : List (Nat × Nat)} {f t : Nat} (hacy : Acyclic E)
    (hnoE : ∀ l, isWalkR E t l f = false) (hft : f ≠ t) :
    Acyclic (E ++ [(f, t)]) := by
  intro v l hl
  by_contra hcl
  rw [Bool.not_eq_false] at hcl
  rcases walk_insert_cases l v v hcl with hE | ⟨p, q, hsplit, hp, hq⟩
  · rw [hacy v l hl] at hE
    exact Bool.false_ne_true hE
  · -- reroute: from t around the closed walk back to f
    have hwalk : isWalkR (E ++ [(f, t)]) t (q ++ p) f = true :=
      (isWalkR_append q).2 ⟨v, hq, hp⟩
    have := no_walk_to_f hnoE hft (q ++ p).length (q ++ p) le_rfl
    rw [this] at hwalk
    exact Bool.false_ne_true hwalk

/-- Under acyclicity of an edge list with at most `bound ≥ E.length` edges,
a negative bounded probe means no walk at all. -/
theorem no_walk_of_probe_false {E : List (Nat × Nat)} {t f : Nat} {bound : Nat}
    (hacy : Acyclic E) (hE : E.length ≤ bound)
    (hprobe : hasPathB E bound t f = false) (hft : f ≠ t) :
    ∀ l, isWalkR E t l f = false := by
  intro l
  by_contra hw
  rw [Bool.not_eq_false] at hw
  cases l with
  | nil => exact hft (isWalkR_nil.1 hw).symm
  | cons x xs =>
    have hlen := walk_length_le hacy hw
    have := hasPathB_complete (x :: xs) t f hw (by simp) bound (le_trans hlen hE)
    rw [hprobe] at this
    exact Bool.false_ne_true this

/-! ## Service model: stored edges and the edge-lifecycle operations

Mirrors `DependencyService.createDependency` / `updateDependency` /
`deleteDependency` / `wouldCreateCycle` / `validateWorkItemsExist` from
`dependencyService.ts`, for a single tenant (every query there carries the
tenant as an equality predicate, so one tenant's state is a complete model
of what the operations can observe). -/

/-- A row of `dependency_edges` (tenant column dropped: single tenant). -/
structure StoredEdge where
  id : Nat
  from_id : Nat
  to_id : Nat
  dependency_type : String
  lag_days : Int
  created_at : Int
  created_by : Nat
  updated_at : Int
  metadata : String
  deriving Repr, DecidableEq

/-- One tenant's store: existing work-item ids and dependency rows. -/
structure TenantState where
  workItems : List Nat
  edges : List StoredEdge
  deriving Repr, DecidableEq

/-- The `(from_id, to_id)` pairs of the stored rows. -/
def edgePairs (edges : List StoredEdge) : List (Nat × Nat) :=
  edges.map (fun e => (e.from_id, e.to_id))

structure CreateDependencyRequest where
  from_id : Nat
  to_id : Nat
  dependency_type : String
  lag_days : Option Int
  metadata : Option String
  deriving Repr, DecidableEq

structure UpdateDependencyRequest where
  dependency_type : Option String
  lag_days : Option Int
  metadata : Option String
  deriving Repr, DecidableEq

/-- Domain errors thrown by the service (`throw new Error(...)`). -/
inductive DepError where
  | workItemsNotFound (missing : List Nat)
  | cycleDetected (chain : List Nat)
  | duplicateDependency
  | dependencyNotFound
  deriving Repr, DecidableEq

/-- The `message` string of the thrown `Error`, exactly as built in the
source. -/
def errMessage : DepError → String
  | .workItemsNotFound missing =>
      "WORK_ITEMS_NOT_FOUND: " ++ String.intercalate ", " (missing.map toString)
  | .cycleDetected chain =>
      "CYCLE_DETECTED: Creating this dependency would create a cycle: " ++
        String.intercalate " -> " (chain.map toString)
  | .duplicateDependency =>
      "DUPLICATE_DEPENDENCY: Dependency already exists between these work items"
  | .dependencyNotFound => "DEPENDENCY_NOT_FOUND"

/-- A published message-queue event: exchange and routing key. -/
structure Event where
  exchange : String
  routingKey : String
  deriving Repr, DecidableEq

def recalcEvent : Event := ⟨"system", "critical_path.recalculate"⟩

structure CycleDetectionResult where
  has_cycles : Bool
  cycles : List (List Nat)
  affected_work_items : List Nat
  resolution_suggestions : List String
  deriving Repr, DecidableEq

/-- `wouldCreateCycle`: bounded (depth ≤ 20) reachability from `toId`;
a hit means some existing path `toId → … → fromId` closes a cycle with
the prospective edge.  The reported "cycle" is just the probe endpoints. -/
def wouldCreateCycle (edges : List StoredEdge) (fromId toId : Nat) :
    CycleDetectionResult :=
  let wouldCycle := hasPathB (edgePairs edges) 20 toId fromId
  { has_cycles := wouldCycle
    cycles := if wouldCycle then [[toId, fromId]] else []
    affected_work_items := if wouldCycle then [fromId, toId] else []
    resolution_suggestions :=
      if wouldCycle then ["Remove existing path or choose different dependency"] else [] }

/-- `validateWorkItemsExist` for the two referenced ids: the ids of
`[from_id, to_id]` absent from the tenant's work items. -/
def missingWorkItems (st : TenantState) (data : CreateDependencyRequest) : List Nat :=
  [data.from_id, data.to_id].filter (fun i => !(st.workItems.contains i))

/-- `createDependency`: validate work items, probe for a cycle, reject
duplicates, insert, then emit the recalc and mutation events. -/
def createDependency (st : TenantState) (userId freshId : Nat) (now : Int)
    (data : CreateDependencyRequest) :
    Except DepError (TenantState × StoredEdge × List Event) :=
  let missing := missingWorkItems st data
  if missing ≠ [] then
    .error (.workItemsNotFound missing)
  else
    let cycleCheck := wouldCreateCycle st.edges data.from_id data.to_id
    if cycleCheck.has_cycles then
      .error (.cycleDetected (cycleCheck.cycles.headD []))
    else if st.edges.any (fun e => e.from_id == data.from_id && e.to_id == data.to_id) then
      .error .duplicateDependency
    else
      let dep : StoredEdge :=
        { id := freshId
          from_id := data.from_id
          to_id := data.to_id
          dependency_type := data.dependency_type
          lag_days := data.lag_days.getD 0
          created_at := now
          created_by := userId
          updated_at := now
          metadata := data.metadata.getD "\x7b\x7d" }
      .ok ({ st with edges := st.edges ++ [dep] }, dep,
        [recalcEvent, ⟨"dependencies", "dependency.created"⟩])

/-- `getDependencyById`: lookup by row id within the tenant. -/
def getDependencyById (st : TenantState) (depId : Nat) : Option StoredEdge :=
  st.edges.find? (fun e => e.id == depId)

/-- `updateDependency`: read the row, apply only the present patch fields,
stamp `updated_at`, write back and emit events; with an empty patch the
row is returned untouched and nothing is written or published. -/
def updateDependency (st : TenantState) (depId : Nat) (now : Int)
    (data : UpdateDependencyRequest) :
    Except DepError (TenantState × StoredEdge × List Event) :=
  match getDependencyById st depId with
  | none => .error .dependencyNotFound
  | some existing =>
    if data.dependency_type.isNone && data.lag_days.isNone && data.metadata.isNone then
      .ok (st, existing, [])
    else
      let updated : StoredEdge :=
        { existing with
          dependency_type := data.dependency_type.getD existing.dependency_type
          lag_days := data.lag_days.getD existing.lag_days
          metadata := data.metadata.getD existing.metadata
          updated_at := now }
      .ok ({ st with edges := st.edges.map (fun e => if e.id == depId then updated else e) },
        updated, [recalcEvent, ⟨"dependencies", "dependency.updated"⟩])

/-- `deleteDependency`: read-check then delete the row and emit events. -/
def deleteDependency (st : TenantState) (depId : Nat) :
    Except DepError (TenantState × List Event) :=
  match getDependencyById st depId with
  | none => .error .dependencyNotFound
  | some _ =>
    .ok ({ st with edges := st.edges.filter (fun e => !(e.id == depId)) },
      [recalcEvent, ⟨"dependencies", "dependency.deleted"⟩])

/-! ## HTTP error classification (`DependencyController.handleError`) -/

/-- Contiguous substring search on character lists. -/
def infixCheck (pat : List Char) : List Char → Bool
  | [] => pat.isEmpty
  | c :: rest => pat.isPrefixOf (c :: rest) || infixCheck pat rest

/-- JavaScript `String.prototype.includes`. -/
def strIncludes (s pat : String) : Bool :=
  infixCheck pat.toList s.toList

/-- `handleError`: map an error message to `(status, errorCode)` by the
source's pattern-match chain (in its exact order). -/
def handleError (msg : String) : Nat × String :=
  if strIncludes msg "CYCLE_DETECTED" then (409, "CYCLE_DETECTED")
  else if strIncludes msg "NOT_FOUND" then (404, "NOT_FOUND")
  else if strIncludes msg "DUPLICATE_DEPENDENCY" then (409, "DUPLICATE_DEPENDENCY")
  else if strIncludes msg "WORK_ITEMS_NOT_FOUND" then (400, "WORK_ITEMS_NOT_FOUND")
  else if strIncludes msg "INVALID_" then (400, "INVALID_REQUEST")
  else (500, "INTERNAL_ERROR")

/-! ## Graph builder (`buildDependencyGraph`) -/

structure WorkItem where
  id : Nat
  title : String
  type : String
  status : String
  estimated_duration_days : Option Int
  deriving Repr, DecidableEq

structure GraphNode where
  id : Nat
  title : String
  type : String
  status : String
  duration_days : Int
  is_critical : Bool
  deriving Repr, DecidableEq

structure GraphEdge where
  id : Nat
  from_ : Nat
  to_ : Nat
  type : String
  lag_days : Int
  is_critical : Bool
  deriving Repr, DecidableEq

structure DependencyGraph where
  nodes : List GraphNode
  edges : List GraphEdge
  critical_path : List Nat
  cycle_detected : Bool
  deriving Repr, DecidableEq

/-- JavaScript `v || d` on numbers: `0`, like `undefined`, is falsy. -/
def jsOrInt (v : Option Int) (d : Int) : Int :=
  match v with
  | none => d
  | some x => if x == 0 then d else x

/-- `estimateDuration`: default duration by work-item type. -/
def estimateDuration (item : WorkItem) : Int :=
  if item.type == "objective" then 90
  else if item.type == "strategy" then 60
  else if item.type == "initiative" then 30
  else if item.type == "task" then 7
  else if item.type == "subtask" then 3
  else 7

/-- `buildDependencyGraph`: map every work item to a node and every
fetched dependency row to an edge.  No filtering of any kind is applied
to the edge list. -/
def buildDependencyGraph (workItems : List WorkItem) (dependencies : List StoredEdge) :
    DependencyGraph :=
  { nodes := workItems.map (fun item =>
      { id := item.id
        title := item.title
        type := item.type
        status := item.status
        duration_days := jsOrInt item.estimated_duration_days (estimateDuration item)
        is_critical := false })
    edges := dependencies.map (fun dep =>
      { id := dep.id
        from_ := dep.from_id
        to_ := dep.to_id
        type := dep.dependency_type
        lag_days := dep.lag_days
        is_critical := false })
    critical_path := []
    cycle_detected := false }

/-! ## CPM engine (`calculateCriticalPath`)

All schedule times are `Int` days.  The memoised recursive passes of the
source are modelled as fuelled recursions; on an acyclic graph any fuel
beyond the longest walk computes the same fixpoint (proved below), and
`g.edges.length + 1` always suffices. -/

def graphPairs (g : DependencyGraph) : List (Nat × Nat) :=
  g.edges.map (fun e => (e.from_, e.to_))

/-- `nodeMap.get`: a JS `Map` built from a list keeps the last binding. -/
def nodeGet (g : DependencyGraph) (n : Nat) : Option GraphNode :=
  g.nodes.reverse.find? (fun nd => nd.id == n)

def durOf (g : DependencyGraph) (n : Nat) : Int :=
  ((nodeGet g n).map (fun nd => nd.duration_days)).getD 0

/-- `reverseAdjacencyList.get(n)`: sources of the edges into `n`. -/
def predIds (g : DependencyGraph) (n : Nat) : List Nat :=
  (g.edges.filter (fun e => e.to_ == n)).map (fun e => e.from_)

/-- `adjacencyList.get(n)`: targets of the edges out of `n`. -/
def succIds (g : DependencyGraph) (n : Nat) : List Nat :=
  (g.edges.filter (fun e => e.from_ == n)).map (fun e => e.to_)

/-- `graph.edges.find(e => e.from === p && e.to_ === n)` and its `lag_days`
(0 when absent, matching `edge ? edge.lag_days : 0`). -/
def lagOf (g : DependencyGraph) (p n : Nat) : Int :=
  ((g.edges.find? (fun e => e.from_ == p && e.to_ == n)).map (fun e => e.lag_days)).getD 0

/-- Fuelled forward pass, returning the earliest finish of a node:
`EF(n) = max(0, max over predecessors p of EF(p) + lag(p→n)) + duration(n)`. -/
def eFAux (g : DependencyGraph) : Nat → Nat → Int
  | 0, n => durOf g n
  | fuel + 1, n =>
    (predIds g n).foldl (fun acc p => max acc (eFAux g fuel p + lagOf g p n)) 0 + durOf g n

/-- Earliest start as computed by the forward pass (`earliestStart`). -/
def earliestStart (g : DependencyGraph) (n : Nat) : Int :=
  (predIds g n).foldl (fun acc p => max acc (eFAux g g.edges.length p + lagOf g p n)) 0

/-- Earliest finish (`earliestFinish`). -/
def earliestFinish (g : DependencyGraph) (n : Nat) : Int :=
  eFAux g (g.edges.length + 1) n

/-- `projectCompletion = Math.max(...earliestFinish.values())`; `none`
models the `-Infinity` that JavaScript's `Math.max()` returns when the
graph has no nodes. -/
def projectCompletionOpt (g : DependencyGraph) : Option Int :=
  match g.nodes.map (fun nd => earliestFinish g nd.id) with
  | [] => none
  | x :: xs => some (xs.foldl max x)

/-- The finite completion time used by the backward pass; the default is
irrelevant because the backward pass only runs over a non-empty node list. -/
def tval (g : DependencyGraph) : Int :=
  (projectCompletionOpt g).getD 0

/-- Fuelled backward pass, returning the latest start of a node:
a sink is anchored at its own earliest finish, otherwise
`LF(n) = min(T, min over successors s of LS(s) − lag(n→s))` and
`LS(n) = LF(n) − duration(n)`. -/
def lsAux (g : DependencyGraph) (T : Int) : Nat → Nat → Int
  | 0, n => earliestFinish g n - durOf g n
  | fuel + 1, n =>
    (if (succIds g n).isEmpty then earliestFinish g n
     else (succIds g n).foldl (fun acc s => min acc (lsAux g T fuel s - lagOf g n s)) T)
      - durOf g n

def latestStart (g : DependencyGraph) (n : Nat) : Int :=
  lsAux g (tval g) (g.edges.length + 1) n

def latestFinish (g : DependencyGraph) (n : Nat) : Int :=
  if (succIds g n).isEmpty then earliestFinish g n
  else (succIds g n).foldl
    (fun acc s => min acc (lsAux g (tval g) g.edges.length s - lagOf g n s)) (tval g)

/-- `slack = latestStart − earliestStart`. -/
def slackOf (g : DependencyGraph) (n : Nat) : Int :=
  latestStart g n - earliestStart g n

/-- The node ids pushed to `criticalNodes` (zero slack, in node order). -/
def criticalNodeIds (g : DependencyGraph) : List Nat :=
  (g.nodes.filter (fun nd => slackOf g nd.id == 0)).map (fun nd => nd.id)

/-- The result of `calculateCriticalPath` (the fields it actually
computes; `bottlenecks`, `risk_score` and `completion_probability` are
returned as constants there). -/
structure CriticalPathAnalysis where
  path : List Nat
  total_duration_days : Option Int
  deriving Repr, DecidableEq

def calculateCriticalPath (g : DependencyGraph) : CriticalPathAnalysis :=
  { path := criticalNodeIds g
    total_duration_days := projectCompletionOpt g }

/-! ## Analysis layer (`calculateRiskScore`, `estimateCompletionProbability`)

JavaScript numbers are modelled by `ℚ`; `none` models `NaN`.  When the
node list is empty every count is 0 and `riskScore / 0 = 0 / 0 = NaN` in
JavaScript, and `Math.min(NaN, 1) = NaN`. -/

def calculateRiskScore (g : DependencyGraph) : Option ℚ :=
  let criticalNodes := g.nodes.filter (fun n => n.is_critical)
  let blockedNodes := g.nodes.filter (fun n => n.status == "blocked")
  let longDurationNodes := g.nodes.filter (fun n => decide ((30 : Int) < n.duration_days))
  let riskScore : ℚ :=
    (criticalNodes.length : ℚ) * (3 / 10) + (blockedNodes.length : ℚ) * (5 / 10) +
      (longDurationNodes.length : ℚ) * (2 / 10)
  if g.nodes.length == 0 then none
  else some (min (riskScore / (g.nodes.length : ℚ)) 1)

/-- `Math.max(0.1, 1 − riskScore)`; `NaN` (`none`) propagates. -/
def estimateCompletionProbability (riskScore : Option ℚ) : Option ℚ :=
  riskScore.map (fun r => max (1 / 10) (1 - r))

/-! ## Stabilization of the fuelled CPM passes

On an acyclic graph every walk is shorter than the edge count, so the
fuelled passes compute the memoised fixpoint of the source once the fuel
exceeds that bound. -/

theorem foldl_congr_mem {α β : Type} (l : List α) (f g : β → α → β)
    (h : ∀ x ∈ l, ∀ acc, f acc x = g acc x) :
    ∀ init, l.foldl f init = l.foldl g init := by
  induction l with
  | nil => intro _; rfl
  | cons y ys ih =>
    intro init
    simp only [List.foldl_cons]
    rw [h y (by simp) init]
    exact ih (fun x hx acc => h x (by simp [hx]) acc) _

theorem mem_predIds {g : DependencyGraph} {n p : Nat} :
    p ∈ predIds g n ↔ ∃ e ∈ g.edges, e.from_ = p ∧ e.to_ = n := by
  simp only [predIds, List.mem_map, List.mem_filter, beq_iff_eq]
  constructor
  · rintro ⟨e, ⟨he, hto⟩, rfl⟩; exact ⟨e, he, rfl, hto⟩
  · rintro ⟨e, he, rfl, hto⟩; exact ⟨e, ⟨he, hto⟩, rfl⟩

theorem mem_succIds {g : DependencyGraph} {n s : Nat} :
    s ∈ succIds g n ↔ ∃ e ∈ g.edges, e.from_ = n ∧ e.to_ = s := by
  simp only [succIds, List.mem_map, List.mem_filter, beq_iff_eq]
  constructor
  · rintro ⟨e, ⟨he, hfrom⟩, rfl⟩; exact ⟨e, he, hfrom, rfl⟩
  · rintro ⟨e, he, hfrom, rfl⟩; exact ⟨e, ⟨he, hfrom⟩, rfl⟩

theorem pair_of_pred {g : DependencyGraph} {n p : Nat} (hp : p ∈ predIds g n) :
    (p, n) ∈ graphPairs g := by
  rcases mem_predIds.1 hp with ⟨e, he, hfrom, hto⟩
  exact List.mem_map.2 ⟨e, he, by rw [hfrom, hto]⟩

theorem pair_of_succ {g : DependencyGraph} {n s : Nat} (hs : s ∈ succIds g n) :
    (n, s) ∈ graphPairs g := by
  rcases mem_succIds.1 hs with ⟨e, he, hfrom, hto⟩
  exact List.mem_map.2 ⟨e, he, by rw [hfrom, hto]⟩

theorem walk_snoc {E : List (Nat × Nat)} {a p n : Nat} {l : List Nat}
    (hw : isWalkR E a l p = true) (hmem : (p, n) ∈ E) :
    isWalkR E a (l ++ [n]) n = true :=
  (isWalkR_append l).2 ⟨p, hw, isWalkR_cons.2 ⟨hmem, isWalkR_nil.2 rfl⟩⟩

/-- Every walk ending at `n` has at most `d` edges. -/
def WalkBoundTo (g : DependencyGraph) (d n : Nat) : Prop :=
  ∀ (a : Nat) (l : List Nat), isWalkR (graphPairs g) a l n = true → l.length ≤ d

/-- Every walk starting at `n` has at most `d` edges. -/
def WalkBoundFrom (g : DependencyGraph) (d n : Nat) : Prop :=
  ∀ (b : Nat) (l : List Nat), isWalkR (graphPairs g) n l b = true → l.length ≤ d

theorem WalkBoundTo.pred {g : DependencyGraph} {d n p : Nat}
    (h : WalkBoundTo g (d + 1) n) (hp : p ∈ predIds g n) : WalkBoundTo g d p := by
  intro a l hw
  have := h a (l ++ [n]) (walk_snoc hw (pair_of_pred hp))
  simp [List.length_append] at this
  omega

theorem WalkBoundFrom.succ {g : DependencyGraph} {d n s : Nat}
    (h : WalkBoundFrom g (d + 1) n) (hs : s ∈ succIds g n) : WalkBoundFrom g d s := by
  intro b l hw
  have := h b (s :: l) (isWalkR_cons.2 ⟨pair_of_succ hs, hw⟩)
  simp at this
  omega

theorem predIds_eq_nil_of_bound {g : DependencyGraph} {n : Nat}
    (h : WalkBoundTo g 0 n) : predIds g n = [] := by
  rw [List.eq_nil_iff_forall_not_mem]
  intro p hp
  have hw : isWalkR (graphPairs g) p [n] n = true :=
    isWalkR_cons.2 ⟨pair_of_pred hp, isWalkR_nil.2 rfl⟩
  simpa using h p [n] hw

theorem succIds_eq_nil_of_bound {g : DependencyGraph} {n : Nat}
    (h : WalkBoundFrom g 0 n) : succIds g n = [] := by
  rw [List.eq_nil_iff_forall_not_mem]
  intro s hs
  have hw : isWalkR (graphPairs g) n [s] s = true :=
    isWalkR_cons.2 ⟨pair_of_succ hs, isWalkR_nil.2 rfl⟩
  simpa using h s [s] hw

theorem eFAux_stab {g : DependencyGraph} :
    ∀ (d : Nat) (n : Nat), WalkBoundTo g d n →
      ∀ fuel, d ≤ fuel → eFAux g fuel n = eFAux g d n := by
  intro d
  induction d with
  | zero =>
    intro n hbd fuel _
    have hpred := predIds_eq_nil_of_bound hbd
    cases fuel with
    | zero => rfl
    | succ k => simp [eFAux, hpred]
  | succ d ih =>
    intro n hbd fuel hfuel
    cases fuel with
    | zero => simp at hfuel
    | succ k =>
      have hk : d ≤ k := Nat.succ_le_succ_iff.1 hfuel
      simp only [eFAux]
      congr 1
      refine foldl_congr_mem _ _ _ ?_ 0
      intro p hp acc
      rw [ih p (hbd.pred hp) k hk]

theorem lsAux_stab {g : DependencyGraph} {T : Int} :
    ∀ (d : Nat) (n : Nat), WalkBoundFrom g d n →
      ∀ fuel, d ≤ fuel → lsAux g T fuel n = lsAux g T d n := by
  intro d
  induction d with
  | zero =>
    intro n hbd fuel _
    have hsucc := succIds_eq_nil_of_bound hbd
    cases fuel with
    | zero => rfl
    | succ k => simp [lsAux, hsucc]
  | succ d ih =>
    intro n hbd fuel hfuel
    cases fuel with
    | zero => simp at hfuel
    | succ k =>
      have hk : d ≤ k := Nat.succ_le_succ_iff.1 hfuel
      simp only [lsAux]
      congr 1
      by_cases hempty : (succIds g n).isEmpty
      · simp [hempty]
      · simp only [hempty, if_false]
        refine foldl_congr_mem _ _ _ ?_ T
        intro s hs acc
        rw [ih s (hbd.succ hs) k hk]

/-- On an acyclic graph every walk (in either direction) is bounded by
the edge count. -/
theorem walkBoundTo_of_acyclic {g : DependencyGraph}
    (hacy : Acyclic (graphPairs g)) (n : Nat) : WalkBoundTo g g.edges.length n := by
  intro a l hw
  have := walk_length_le hacy hw
  simpa [graphPairs] using this

theorem walkBoundFrom_of_acyclic {g : DependencyGraph}
    (hacy : Acyclic (graphPairs g)) (n : Nat) : WalkBoundFrom g g.edges.length n := by
  intro b l hw
  have := walk_length_le hacy hw
  simpa [graphPairs] using this

/-- `EF(n) = ES(n) + duration(n)` (holds by construction of the pass). -/
theorem eF_eq_eS_add_dur (g : DependencyGraph) (n : Nat) :
    earliestFinish g n = earliestStart g n + durOf g n := by
  simp [earliestFinish, earliestStart, eFAux]

/-- `LS(n) = LF(n) − duration(n)` (holds by construction of the pass). -/
theorem lS_eq_lF_sub_dur (g : DependencyGraph) (n : Nat) :
    latestStart g n = latestFinish g n - durOf g n := by
  simp [latestStart, latestFinish, lsAux]

/-- The forward-pass recurrence, stated with the stabilized values:
`ES(n)` is the fold of `max` over `EF(p) + lag(p→n)` for the predecessors
`p` of `n`, starting from `0`. -/
theorem eS_recurrence {g : DependencyGraph} (hacy : Acyclic (graphPairs g)) (n : Nat) :
    earliestStart g n =
      (predIds g n).foldl (fun acc p => max acc (earliestFinish g p + lagOf g p n)) 0 := by
  unfold earliestStart earliestFinish
  refine foldl_congr_mem _ _ _ ?_ 0
  intro p _ acc
  rw [eFAux_stab g.edges.length p (walkBoundTo_of_acyclic hacy p) (g.edges.length + 1)
    (Nat.le_succ _)]

/-- The backward-pass recurrence with the stabilized values: a sink is
anchored at its own earliest finish, otherwise `LF(n)` is the fold of
`min` over `LS(s) − lag(n→s)` for the successors `s`, starting from the
project completion time. -/
theorem lF_recurrence {g : DependencyGraph} (hacy : Acyclic (graphPairs g)) (n : Nat) :
    latestFinish g n =
      if (succIds g n).isEmpty then earliestFinish g n
      else (succIds g n).foldl (fun acc s => min acc (latestStart g s - lagOf g n s))
        (tval g) := by
  unfold latestFinish latestStart
  by_cases hempty : (succIds g n).isEmpty
  · simp [hempty]
  · simp only [hempty, if_false]
    refine foldl_congr_mem _ _ _ ?_ (tval g)
    intro s _ acc
    rw [lsAux_stab g.edges.length s (walkBoundFrom_of_acyclic hacy s) (g.edges.length + 1)
      (Nat.le_succ _)]

/-! ## Order facts about the CPM folds -/

theorem foldl_max_ge (f : Nat → Int) :
    ∀ (l : List Nat) (init : Int),
      init ≤ l.foldl (fun acc p => max acc (f p)) init ∧
      ∀ x ∈ l, f x ≤ l.foldl (fun acc p => max acc (f p)) init := by
  intro l
  induction l with
  | nil => intro init; exact ⟨le_rfl, by simp⟩
  | cons y ys ih =>
    intro init
    simp only [List.foldl_cons]
    rcases ih (max init (f y)) with ⟨h1, h2⟩
    refine ⟨le_trans (le_max_left _ _) h1, ?_⟩
    intro x hx
    rcases List.mem_cons.1 hx with rfl | hx
    · exact le_trans (le_max_right _ _) h1
    · exact h2 x hx

theorem le_foldl_min (f : Nat → Int) :
    ∀ (l : List Nat) (init c : Int), c ≤ init → (∀ x ∈ l, c ≤ f x) →
      c ≤ l.foldl (fun acc s => min acc (f s)) init := by
  intro l
  induction l with
  | nil => intro init c hc _; simpa using hc
  | cons y ys ih =>
    intro init c hc hall
    simp only [List.foldl_cons]
    refine ih (min init (f y)) c (le_min hc (hall y (by simp))) ?_
    intro x hx
    exact hall x (by simp [hx])

theorem mem_le_foldl_max :
    ∀ (xs : List Int) (x v : Int), v ∈ x :: xs → v ≤ xs.foldl max x := by
  intro xs
  induction xs with
  | nil => intro x v hv; simp at hv; simp [hv]
  | cons y ys ih =>
    intro x v hv
    simp only [List.foldl_cons]
    rcases List.mem_cons.1 hv with rfl | hv
    · exact le_trans (le_max_left _ _) (ih (max v y) (max v y) (by simp))
    · rcases List.mem_cons.1 hv with rfl | hv
      · exact le_trans (le_max_right _ _) (ih (max x v) (max x v) (by simp))
      · exact ih (max x y) v (by simp [hv])

/-- Every node's earliest finish is at most the project completion time. -/
theorem eF_le_tval (g : DependencyGraph) :
    ∀ nd ∈ g.nodes, earliestFinish g nd.id ≤ tval g := by
  cases hn : g.nodes with
  | nil => simp
  | cons n0 rest =>
    intro nd hmem
    have hmm : earliestFinish g nd.id ∈
        earliestFinish g n0.id :: rest.map (fun x => earliestFinish g x.id) := by
      have : nd = n0 ∨ nd ∈ rest := List.mem_cons.1 hmem
      rcases this with rfl | hmem2
      · exact List.mem_cons_self _ _
      · exact List.mem_cons.2 (Or.inr (List.mem_map.2 ⟨nd, hmem2, rfl⟩))
    have htv : tval g =
        (rest.map (fun x => earliestFinish g x.id)).foldl max (earliestFinish g n0.id) := by
      simp [tval, projectCompletionOpt, hn]
    rw [htv]
    exact mem_le_foldl_max _ _ _ hmm

/-- Core CPM inequality: on an acyclic graph whose edges connect existing
nodes, every node's earliest start is at most its latest start. -/
theorem eS_le_lS {g : DependencyGraph} (hacy : Acyclic (graphPairs g))
    (hwf : ∀ e ∈ g.edges, (∃ nd ∈ g.nodes, nd.id = e.from_) ∧
      ∃ nd ∈ g.nodes, nd.id = e.to_) :
    ∀ nd ∈ g.nodes, earliestStart g nd.id ≤ latestStart g nd.id := by
  have main : ∀ (d : Nat) (n : Nat), (∃ nd ∈ g.nodes, nd.id = n) → WalkBoundFrom g d n →
      earliestStart g n ≤ latestStart g n := by
    intro d
    induction d with
    | zero =>
      intro n _ hbd
      have hsucc := succIds_eq_nil_of_bound hbd
      rw [lS_eq_lF_sub_dur, lF_recurrence hacy, hsucc]
      simp [eF_eq_eS_add_dur]
    | succ d ih =>
      intro n hmem hbd
      by_cases hempty : (succIds g n).isEmpty
      · rw [lS_eq_lF_sub_dur, lF_recurrence hacy, if_pos hempty]
        simp [eF_eq_eS_add_dur]
      · rw [lS_eq_lF_sub_dur, lF_recurrence hacy, if_neg hempty]
        have hgoal : earliestFinish g n ≤
            (succIds g n).foldl (fun acc s => min acc (latestStart g s - lagOf g n s))
              (tval g) := by
          refine le_foldl_min _ _ _ _ ?_ ?_
          · rcases hmem with ⟨nd, hnd, rfl⟩
            exact eF_le_tval g nd hnd
          · intro s hs
            rcases mem_succIds.1 hs with ⟨e, he, hefrom, heto⟩
            have hsmem : ∃ nd ∈ g.nodes, nd.id = s := by
              rcases (hwf e he).2 with ⟨nd, hnd, hid⟩
              exact ⟨nd, hnd, by rw [hid, heto]⟩
            have hpred : n ∈ predIds g s := mem_predIds.2 ⟨e, he, hefrom, heto⟩
            have hfwd : earliestFinish g n + lagOf g n s ≤ earliestStart g s := by
              rw [eS_recurrence hacy s]
              exact (foldl_max_ge (fun p => earliestFinish g p + lagOf g p s)
                (predIds g s) 0).2 n hpred
            have hih : earliestStart g s ≤ latestStart g s :=
              ih s hsmem (hbd.succ hs)
            omega
        have hdur : earliestFinish g n = earliestStart g n + durOf g n :=
          eF_eq_eS_add_dur g n
        omega
  intro nd hnd
  exact main g.edges.length nd.id ⟨nd, hnd, rfl⟩
    (walkBoundFrom_of_acyclic hacy nd.id)

/-- When no two edges share `(from, to)`, the `find?`-based lag lookup of
the passes returns each edge's own `lag_days`. -/
theorem find_lag_eq :
    ∀ (l : List GraphEdge), (l.map (fun e => (e.from_, e.to_))).Nodup →
      ∀ e ∈ l,
        ((l.find? (fun x => x.from_ == e.from_ && x.to_ == e.to_)).map
          (fun x => x.lag_days)).getD 0 = e.lag_days := by
  intro l
  induction l with
  | nil => simp
  | cons x xs ih =>
    intro hnd e he
    simp only [List.map_cons, List.nodup_cons] at hnd
    rcases List.mem_cons.1 he with rfl | he2
    · rw [List.find?_cons_of_pos _ (by simp)]
      rfl
    · by_cases hmatch : (x.from_ == e.from_ && x.to_ == e.to_) = true
      · exfalso
        simp only [Bool.and_eq_true, beq_iff_eq] at hmatch
        exact hnd.1 (List.mem_map.2 ⟨e, he2, by rw [hmatch.1, hmatch.2]⟩)
      · rw [List.find?_cons_of_neg xs hmatch]
        exact ih hnd.2 e he2

theorem lagOf_edge {g : DependencyGraph}
    (hpairs : (g.edges.map (fun e => (e.from_, e.to_))).Nodup) :
    ∀ e ∈ g.edges, lagOf g e.from_ e.to_ = e.lag_days := by
  intro e he
  exact find_lag_eq g.edges hpairs e he

/-! ## Concrete fixtures used by the claim theorems and witnesses -/

/-- Diamond graph of spec scenario 2: A(4), B(2), C(3), D(1) with
edges A→B (lag 0), A→C (lag 1), B→D (lag 0), C→D (lag 0);
ids A=1, B=2, C=3, D=4. -/
def diamondGraph : DependencyGraph :=
  { nodes :=
      [⟨1, "A", "task", "open", 4, false⟩,
       ⟨2, "B", "task", "open", 2, false⟩,
       ⟨3, "C", "task", "open", 3, false⟩,
       ⟨4, "D", "task", "open", 1, false⟩]
    edges :=
      [⟨11, 1, 2, "finish_to_start", 0, false⟩,
       ⟨12, 1, 3, "finish_to_start", 1, false⟩,
       ⟨13, 2, 4, "finish_to_start", 0, false⟩,
       ⟨14, 3, 4, "finish_to_start", 0, false⟩]
    critical_path := []
    cycle_detected := false }

/-- Two nodes of duration 1 joined by an edge with lag −5: the maximum
over predecessors of node 2 is `EF(1) − 5 = −4 < 0`. -/
def negLagGraph : DependencyGraph :=
  { nodes :=
      [⟨1, "A", "task", "open", 1, false⟩,
       ⟨2, "B", "task", "open", 1, false⟩]
    edges := [⟨21, 1, 2, "finish_to_start", -5, false⟩]
    critical_path := []
    cycle_detected := false }

/-- The empty dependency graph. -/
def emptyGraph : DependencyGraph :=
  { nodes := [], edges := [], critical_path := [], cycle_detected := false }

/-- Store holding work items 1, 2, 3 and the chain 1→2→3
(A→B, B→C of spec scenario 3). -/
def chainState : TenantState :=
  { workItems := [1, 2, 3]
    edges :=
      [⟨31, 1, 2, "finish_to_start", 0, 0, 5, 0, "\x7b\x7d"⟩,
       ⟨32, 2, 3, "finish_to_start", 0, 0, 5, 0, "\x7b\x7d"⟩] }

/-! ## Claim theorems -/

/-- C2: for every acyclic graph whose edges join existing nodes, carry
pairwise-distinct `(from, to)` pairs, and whose nodes have non-negative
durations, the CPM pass satisfies `EF = ES + duration`,
`LF = LS + duration`, `ES ≤ LS`, `EF ≤ LF`, `slack = LS − ES ≥ 0` at
every node, and `EF(u) + lag(u,v) ≤ ES(v)` on every edge. -/
theorem C2_cpm_soundness (g : DependencyGraph)
    (hacy : acyclicB (graphPairs g) = true)
    (hwf : g.edges.all (fun e =>
      g.nodes.any (fun nd => nd.id == e.from_) &&
      g.nodes.any (fun nd => nd.id == e.to_)) = true)
    (hdur : g.nodes.all (fun nd => decide (0 ≤ nd.duration_days)) = true)
    (hpairs : (g.edges.map (fun e => (e.from_, e.to_))).Nodup) :
    (∀ nd ∈ g.nodes,
      earliestFinish g nd.id = earliestStart g nd.id + durOf g nd.id ∧
      latestFinish g nd.id = latestStart g nd.id + durOf g nd.id ∧
      earliestStart g nd.id ≤ latestStart g nd.id ∧
      earliestFinish g nd.id ≤ latestFinish g nd.id ∧
      slackOf g nd.id = latestStart g nd.id - earliestStart g nd.id ∧
      0 ≤ slackOf g nd.id) ∧
    ∀ e ∈ g.edges, earliestFinish g e.from_ + e.lag_days ≤ earliestStart g e.to_ := by
  have hacy2 : Acyclic (graphPairs g) := acyclicB_iff.1 hacy
  simp only [List.all_eq_true, Bool.and_eq_true, List.any_eq_true, beq_iff_eq] at hwf
  constructor
  · intro nd hnd
    have h1 := eF_eq_eS_add_dur g nd.id
    have h2 := lS_eq_lF_sub_dur g nd.id
    have h3 := eS_le_lS hacy2 hwf nd hnd
    refine ⟨h1, by omega, h3, by omega, rfl, ?_⟩
    simp only [slackOf]
    omega
  · intro e he
    have hrec := eS_recurrence hacy2 e.to_
    have hmax := (foldl_max_ge (fun p => earliestFinish g p + lagOf g p e.to_)
      (predIds g e.to_) 0).2 e.from_ (mem_predIds.2 ⟨e, he, rfl, rfl⟩)
    calc earliestFinish g e.from_ + e.lag_days
        = earliestFinish g e.from_ + lagOf g e.from_ e.to_ := by
          rw [lagOf_edge hpairs e he]
      _ ≤ (predIds g e.to_).foldl
            (fun acc p => max acc (earliestFinish g p + lagOf g p e.to_)) 0 := hmax
      _ = earliestStart g e.to_ := hrec.symm

theorem C2_cpm_soundness_witness : 0 ≤ slackOf diamondGraph 2 := by
  have h := C2_cpm_soundness diamondGraph (by decide) (by decide) (by decide) (by decide)
  exact (h.1 ⟨2, "B", "task", "open", 2, false⟩ (by decide)).2.2.2.2.2

/-- C3: on the diamond A(4), B(2), C(3), D(1) with edges A→B (lag 0),
A→C (lag 1), B→D, C→D, `calculateCriticalPath` returns total duration 9,
critical nodes [A, C, D] and slack 2 for B (ids A=1, B=2, C=3, D=4). -/
theorem C3_diamond_with_lag :
    calculateCriticalPath diamondGraph =
      { path := [1, 3, 4], total_duration_days := some 9 } ∧
    slackOf diamondGraph 2 = 2 := by
  constructor <;> rfl

/-- C8 counterexample: in `negLagGraph` (edge 1→2 with lag −5, durations
1), node 2 has the single predecessor 1 and
`EF(1) + lag(1→2) = −4`, yet the forward pass assigns `ES(2) = 0`:
clipping at 0 is applied at the non-source node 2, refuting the claim
that `ES(n)` equals the predecessor maximum even when negative. -/
theorem C8_clip_at_nonsource :
    predIds negLagGraph 2 = [1] ∧
    earliestFinish negLagGraph 1 + lagOf negLagGraph 1 2 = -4 ∧
    earliestStart negLagGraph 2 = 0 ∧
    earliestStart negLagGraph 2 ≠
      earliestFinish negLagGraph 1 + lagOf negLagGraph 1 2 := by
  refine ⟨rfl, rfl, rfl, by decide⟩

/-- C8 (amended): on every acyclic graph the forward pass computes
`ES(n) = max(0, max over predecessors p of EF(p) + lag(p→n))` — the fold
starts at 0 at every node, so clipping at 0 applies at all nodes, not
only sources; a node with no predecessors has `ES = 0`. -/
theorem C8_forward_clip_amended (g : DependencyGraph)
    (hacy : acyclicB (graphPairs g) = true) (n : Nat) :
    earliestStart g n =
      (predIds g n).foldl (fun acc p => max acc (earliestFinish g p + lagOf g p n)) 0 ∧
    (predIds g n = [] → earliestStart g n = 0) := by
  have hacy2 : Acyclic (graphPairs g) := acyclicB_iff.1 hacy
  refine ⟨eS_recurrence hacy2 n, ?_⟩
  intro hnil
  rw [eS_recurrence hacy2 n, hnil]
  rfl

theorem C8_forward_clip_amended_witness :
    earliestStart negLagGraph 2 =
      (predIds negLagGraph 2).foldl
        (fun acc p => max acc (earliestFinish negLagGraph p + lagOf negLagGraph p 2)) 0 :=
  (C8_forward_clip_amended negLagGraph (by decide) 2).1

/-- C1 counterexample: on the store with work item 1 and no edges,
`createDependency` accepts the self-loop `1 → 1` (the depth-20 probe
finds no existing path from `to_id` back to `from_id`, so nothing rejects
`from_id = to_id`), and the resulting edge set is cyclic. -/
theorem C1_self_loop_accepted :
    createDependency ⟨[1], []⟩ 5 7 99 ⟨1, 1, "finish_to_start", none, none⟩ =
      .ok (⟨[1], [⟨7, 1, 1, "finish_to_start", 0, 99, 5, 99, "\x7b\x7d"⟩]⟩,
        ⟨7, 1, 1, "finish_to_start", 0, 99, 5, 99, "\x7b\x7d"⟩,
        [recalcEvent, ⟨"dependencies", "dependency.created"⟩]) ∧
    acyclicB (edgePairs [⟨7, 1, 1, "finish_to_start", 0, 99, 5, 99, "\x7b\x7d"⟩]) = false := by
  constructor <;> rfl

/-- C1 (amended): a successful `createDependency` preserves acyclicity
provided `from_id ≠ to_id` and the tenant holds at most 20 edges (so the
depth-20 probe is complete); `deleteDependency` always preserves
acyclicity.  Without those provisos the invariant fails: self-loops and
cycles closed by paths longer than 20 edges are accepted. -/
theorem C1_acyclicity_amended :
    (∀ (st : TenantState) (u fid : Nat) (now : Int) (data : CreateDependencyRequest)
       (st2 : TenantState) (dep : StoredEdge) (evs : List Event),
      acyclicB (edgePairs st.edges) = true →
      data.from_id ≠ data.to_id →
      st.edges.length ≤ 20 →
      createDependency st u fid now data = .ok (st2, dep, evs) →
      acyclicB (edgePairs st2.edges) = true) ∧
    (∀ (st : TenantState) (depId : Nat) (st2 : TenantState) (evs : List Event),
      acyclicB (edgePairs st.edges) = true →
      deleteDependency st depId = .ok (st2, evs) →
      acyclicB (edgePairs st2.edges) = true) := by
  constructor
  · intro st u fid now data st2 dep evs hacy hneq hlen hok
    simp only [createDependency] at hok
    by_cases h1 : missingWorkItems st data ≠ []
    · rw [if_pos h1] at hok
      exact absurd hok (by simp)
    · rw [if_neg h1] at hok
      by_cases h2 : (wouldCreateCycle st.edges data.from_id data.to_id).has_cycles = true
      · rw [if_pos h2] at hok
        exact absurd hok (by simp)
      · rw [if_neg h2] at hok
        by_cases h3 : st.edges.any
            (fun e => e.from_id == data.from_id && e.to_id == data.to_id) = true
        · rw [if_pos h3] at hok
          exact absurd hok (by simp)
        · rw [if_neg h3] at hok
          simp only [Except.ok.injEq, Prod.mk.injEq] at hok
          obtain ⟨hst, -, -⟩ := hok
          rw [← hst, acyclicB_iff]
          have hpairs2 : edgePairs (st.edges ++
              [{ id := fid, from_id := data.from_id, to_id := data.to_id,
                 dependency_type := data.dependency_type,
                 lag_days := data.lag_days.getD 0, created_at := now, created_by := u,
                 updated_at := now, metadata := data.metadata.getD "\x7b\x7d" }]) =
              edgePairs st.edges ++ [(data.from_id, data.to_id)] := by
            simp [edgePairs]
          rw [show ({ st with edges := st.edges ++ [_] } : TenantState).edges =
            st.edges ++ [_] from rfl, hpairs2]
          have hprobe : hasPathB (edgePairs st.edges) 20 data.to_id data.from_id = false := by
            rw [Bool.not_eq_true] at h2
            exact h2
          refine acyclic_insert (acyclicB_iff.1 hacy) ?_ hneq
          refine no_walk_of_probe_false (acyclicB_iff.1 hacy) ?_ hprobe hneq
          simpa [edgePairs] using hlen
  · intro st depId st2 evs hacy hok
    cases hfind : getDependencyById st depId with
    | none =>
      simp only [deleteDependency, hfind] at hok
      exact absurd hok (by simp)
    | some e0 =>
      simp only [deleteDependency, hfind, Except.ok.injEq, Prod.mk.injEq] at hok
      obtain ⟨hst, -⟩ := hok
      rw [← hst, acyclicB_iff]
      refine Acyclic.of_subset ?_ (acyclicB_iff.1 hacy)
      intro pr hpr
      simp only [edgePairs, List.mem_map] at hpr ⊢
      rcases hpr with ⟨e, he, rfl⟩
      exact ⟨e, List.mem_of_mem_filter he, rfl⟩

theorem C1_acyclicity_amended_witness :
    acyclicB (edgePairs
      [⟨7, 1, 2, "finish_to_start", 0, 99, 5, 99, "\x7b\x7d"⟩]) = true := by
  have h := C1_acyclicity_amended
  exact h.1 ⟨[1, 2], []⟩ 5 7 99 ⟨1, 2, "finish_to_start", none, none⟩
    ⟨[1, 2], [⟨7, 1, 2, "finish_to_start", 0, 99, 5, 99, "\x7b\x7d"⟩]⟩
    ⟨7, 1, 2, "finish_to_start", 0, 99, 5, 99, "\x7b\x7d"⟩
    [recalcEvent, ⟨"dependencies", "dependency.created"⟩]
    (by decide) (by decide) (by decide) rfl

/-- C4 counterexample: with stored edges 1→2, 2→3 (A→B, B→C), the create
of 3→1 (C→A) is rejected with `CYCLE_DETECTED`, but the reported chain is
only the probe endpoints `[1, 3]` (`[toId, fromId]`): the error message
contains neither the full cycle `1 -> 2 -> 3 -> 1` nor any rotation of
it. -/
theorem C4_chain_not_full_cycle :
    createDependency chainState 5 7 99 ⟨3, 1, "finish_to_start", none, none⟩ =
      .error (.cycleDetected [1, 3]) ∧
    strIncludes (errMessage (.cycleDetected [1, 3])) "1 -> 2 -> 3 -> 1" = false ∧
    strIncludes (errMessage (.cycleDetected [1, 3])) "2 -> 3 -> 1 -> 2" = false ∧
    strIncludes (errMessage (.cycleDetected [1, 3])) "3 -> 1 -> 2 -> 3" = false := by
  refine ⟨rfl, ?_, ?_, ?_⟩ <;> decide

/-- C4 (amended): whenever the depth-20 probe finds an existing path from
`to_id` to `from_id` (and the work items exist), `createDependency` fails
with `CYCLE_DETECTED` whose chain is exactly `[to_id, from_id]` — the
probe endpoints, not the full offending cycle — and, failing, writes no
edge. -/
theorem C4_chain_amended :
    ∀ (st : TenantState) (u fid : Nat) (now : Int) (data : CreateDependencyRequest),
      missingWorkItems st data = [] →
      hasPathB (edgePairs st.edges) 20 data.to_id data.from_id = true →
      createDependency st u fid now data =
        .error (.cycleDetected [data.to_id, data.from_id]) := by
  intro st u fid now data h1 h2
  simp only [createDependency]
  rw [if_neg (by simp [h1])]
  have hcy : (wouldCreateCycle st.edges data.from_id data.to_id).has_cycles = true := h2
  rw [if_pos hcy]
  simp [wouldCreateCycle, h2]

theorem C4_chain_amended_witness :
    createDependency chainState 5 7 99 ⟨3, 1, "finish_to_start", none, none⟩ =
      .error (.cycleDetected [1, 3]) :=
  C4_chain_amended chainState 5 7 99 ⟨3, 1, "finish_to_start", none, none⟩
    (by decide) (by decide)

/-- C5: with only work item 1 in the tenant, creating `1 → 2` fails with
`WORK_ITEMS_NOT_FOUND` listing the missing id 2 — but the HTTP boundary
classifies the message as 404 `NOT_FOUND`, not 400 `WORK_ITEMS_NOT_FOUND`:
the `includes("NOT_FOUND")` branch of `handleError` runs first and
matches the substring `NOT_FOUND` of `WORK_ITEMS_NOT_FOUND`, making the
400 branch unreachable for this message. -/
theorem C5_work_items_not_found_is_404 :
    createDependency ⟨[1], []⟩ 5 7 99 ⟨1, 2, "finish_to_start", none, none⟩ =
      .error (.workItemsNotFound [2]) ∧
    handleError (errMessage (.workItemsNotFound [2])) = (404, "NOT_FOUND") ∧
    handleError (errMessage (.workItemsNotFound [2])) ≠ (400, "WORK_ITEMS_NOT_FOUND") := by
  refine ⟨rfl, rfl, by decide⟩

/-- C6: on the empty graph `calculateCriticalPath` does return an empty
critical path, but its total duration is `Math.max()` of no values, i.e.
`-Infinity` (modelled `none`), not the claimed 0. -/
theorem C6_empty_graph_neg_infinity :
    calculateCriticalPath emptyGraph = { path := [], total_duration_days := none } ∧
    (none : Option Int) ≠ some 0 := by
  refine ⟨rfl, by decide⟩

/-- C7 counterexample: building the graph from work item 1 and the single
dependency row `1 → 2` keeps the edge although node 2 is not in the node
set: the builder does not discard dangling edges. -/
theorem C7_dangling_edge_returned :
    ((buildDependencyGraph [⟨1, "A", "task", "open", some 5⟩]
        [⟨41, 1, 2, "finish_to_start", 0, 0, 5, 0, "\x7b\x7d"⟩]).edges.all (fun e =>
      (buildDependencyGraph [⟨1, "A", "task", "open", some 5⟩]
        [⟨41, 1, 2, "finish_to_start", 0, 0, 5, 0, "\x7b\x7d"⟩]).nodes.any
          (fun nd => nd.id == e.from_) &&
      (buildDependencyGraph [⟨1, "A", "task", "open", some 5⟩]
        [⟨41, 1, 2, "finish_to_start", 0, 0, 5, 0, "\x7b\x7d"⟩]).nodes.any
          (fun nd => nd.id == e.to_))) = false := by
  decide

/-- C7 (amended): the builder maps every fetched dependency row to one
returned edge, unchanged and unfiltered — dangling edges (endpoints
outside the node set) are returned to the CPM caller rather than
discarded. -/
theorem C7_builder_amended :
    ∀ (workItems : List WorkItem) (deps : List StoredEdge),
      (buildDependencyGraph workItems deps).edges = deps.map (fun dep =>
        { id := dep.id, from_ := dep.from_id, to_ := dep.to_id,
          type := dep.dependency_type, lag_days := dep.lag_days,
          is_critical := false }) ∧
      (buildDependencyGraph workItems deps).edges.length = deps.length := by
  intro workItems deps
  exact ⟨rfl, by simp [buildDependencyGraph]⟩

/-- C9: on the empty graph the risk score is `0 / 0 = NaN` (modelled
`none`), not the claimed 0, and the completion probability
`Math.max(0.1, 1 − NaN) = NaN` as well. -/
theorem C9_risk_nan_empty :
    calculateRiskScore emptyGraph = none ∧
    calculateRiskScore emptyGraph ≠ some 0 ∧
    estimateCompletionProbability (calculateRiskScore emptyGraph) = none := by
  refine ⟨rfl, by decide, rfl⟩

/-- C10: updating an existing edge with a patch containing none of
`dependency_type`, `lag_days`, `metadata` returns the stored edge with
every field (including `updated_at`) unchanged, leaves the store as it
was, and publishes no event. -/
theorem C10_update_noop (st : TenantState) (depId : Nat) (now : Int)
    (existing : StoredEdge)
    (hfind : getDependencyById st depId = some existing) :
    updateDependency st depId now ⟨none, none, none⟩ = .ok (st, existing, []) := by
  simp [updateDependency, hfind]

theorem C10_update_noop_witness :
    updateDependency ⟨[1, 2], [⟨10, 1, 2, "finish_to_start", 0, 0, 5, 3, "\x7b\x7d"⟩]⟩
        10 77 ⟨none, none, none⟩ =
      .ok (⟨[1, 2], [⟨10, 1, 2, "finish_to_start", 0, 0, 5, 3, "\x7b\x7d"⟩]⟩,
        ⟨10, 1, 2, "finish_to_start", 0, 0, 5, 3, "\x7b\x7d"⟩, []) :=
  C10_update_noop ⟨[1, 2], [⟨10, 1, 2, "finish_to_start", 0, 0, 5, 3, "\x7b\x7d"⟩]⟩
    10 77 ⟨10, 1, 2, "finish_to_start", 0, 0, 5, 3, "\x7b\x7d"⟩ rfl

end DepService
